import Mathlib

/-!
Verification of the gf-metadata accessor layer (`src/lib.rs`).

The Rust code is shallowly embedded: Rust `&str` values are modelled as
`String` / `List Char` (all inputs of interest are ASCII, where Rust byte
indexing and `char` indexing coincide), `i32` weights and populations as
`Int` (no arithmetic here approaches the `i32` range), fallible or
panicking code as `Option` / `Except`.  The external protobuf text-format
deserializer and the bundled language knowledge base are parameters of the
definitions that use them, mirroring their role as external collaborators.
-/

/-- Rust `char::is_whitespace`, restricted to the ASCII whitespace
characters that occur in the repository's data (on ASCII input Rust's
Unicode predicate agrees with this one). -/
def rsIsWs (c : Char) : Bool := c.isWhitespace

/-- Rust `str::trim`: remove leading and trailing whitespace. -/
def trimChars (l : List Char) : List Char :=
  ((l.dropWhile rsIsWs).reverse.dropWhile rsIsWs).reverse

/-- Rust `str::find` for a single-character pattern: index of the first
character satisfying `p`, if any. -/
def firstIdx (p : Char → Bool) : List Char → Option Nat
  | [] => none
  | c :: t => if p c then some 0 else (firstIdx p t).map (· + 1)

/-- Rust `str::contains(pat)`: `pat` occurs as a contiguous substring. -/
def hasSub (pat : List Char) : List Char → Bool
  | [] => pat.isEmpty
  | c :: t => pat.isPrefixOf (c :: t) || hasSub pat t

/-- `str::contains` on `String`s. -/
def strContains (s pat : String) : Bool := hasSub pat.data s.data

/-- `FontProto` (external schema): the accessors used by the code are
`filename()`, `style()` and `weight()`. -/
structure FontProto where
  filename : String
  style : String
  weight : Int
deriving DecidableEq

/-- `FamilyProto` (external schema): the accessors used by the code are
`name()`, `has_primary_language()` / `primary_language()`,
`has_primary_script()` / `primary_script()` and `fonts`.  The optional
proto fields are `Option`s; the Rust accessor returns `""` when the field
is absent, modelled by `Option.getD ""` at use sites. -/
structure FamilyProto where
  name : String
  primary_language : Option String
  primary_script : Option String
  fonts : List FontProto
deriving DecidableEq

/-- `LanguageProto` (from the `google_fonts_languages` crate): the fields
used by the code are the id (the key in the `LANGUAGES` map), `script`
(optional) and `population()`. -/
structure LanguageProto where
  id : String
  script : Option String
  population : Int
deriving DecidableEq

/-- `FontStyle` from `src/lib.rs`. -/
inductive FontStyle where
  | Normal
  | Italic
deriving DecidableEq

/-- `FontStyle::style`. -/
def FontStyle.style : FontStyle → String
  | FontStyle.Normal => "normal"
  | FontStyle.Italic => "italic"

/-- `exemplar_score` from `src/lib.rs`: sequential score mutation,
translated with one `let` per Rust statement.  `(font.weight() -
preferred_weight).abs() / 100` is `i32` division of a non-negative
numerator, i.e. `Nat` division of the absolute difference. -/
def exemplar_score (font : FontProto) (preferred_style : FontStyle)
    (preferred_weight : Int) : Int :=
  let score : Int := 0
  let score := if font.style = preferred_style.style then score + 16 else score
  let score := score - (((font.weight - preferred_weight).natAbs / 100 : Nat) : Int)
  let score := if font.weight > preferred_weight then score + 1 else score
  let score := if strContains font.filename "]." then score + 2 else score
  score

/-- `select_font` from `src/lib.rs`: `Iterator::reduce` with
"keep the accumulator unless the new element scores strictly higher".
`reduce` on an empty iterator is `None`; otherwise it is a `foldl` of the
tail starting from the head. -/
def select_font (family : FamilyProto) (preferred_style : FontStyle)
    (preferred_weight : Int) : Option FontProto :=
  match family.fonts with
  | [] => none
  | f :: rest =>
    some (rest.foldl
      (fun acc e =>
        if exemplar_score acc preferred_style preferred_weight ≥
            exemplar_score e preferred_style preferred_weight
        then acc else e) f)

/-- `exemplar` from `src/lib.rs`: the same `reduce`, with the inner
`score` function fixed to `exemplar_score font Normal 400`. -/
def exemplar (family : FamilyProto) : Option FontProto :=
  match family.fonts with
  | [] => none
  | f :: rest =>
    some (rest.foldl
      (fun acc e =>
        if exemplar_score acc FontStyle.Normal 400 ≥
            exemplar_score e FontStyle.Normal 400
        then acc else e) f)

/-- The `reduce` combinator used by `select_font`/`exemplar`, abstracted
over the score function: first element wins all ties. -/
def reduceFirst {α : Type} (score : α → Int) (a : α) (l : List α) : α :=
  l.foldl (fun acc e => if score acc ≥ score e then acc else e) a

/-- The `reduce` combinator used by `primary_language` for the
by-population scan: last element wins all ties. -/
def reduceLast {α : Type} (pop : α → Int) (a : α) (l : List α) : α :=
  l.foldl (fun acc e => if pop acc > pop e then acc else e) a

/-- The loop body of `csv_values` from `src/lib.rs`, one recursive call
per `while` iteration.  Per iteration: trim the remainder; if it starts
with `"` let `j` be the index of the next `"` in the remainder after that
quote (`str::find` on the `strip_prefix` result), panicking — modelled as
`none` — when there is none; then look for the next `,` starting at
offset `j` of the (unstripped) remainder; if found at relative offset `v`
the field is the trimmed prefix of length `j + v` and the loop continues
after the comma, else the whole remainder is the last field. -/
def csvLoop (s : List Char) : Option (List (List Char)) :=
  if hs : s = [] then some []
  else
    match (if (trimChars s).head? = some '\"' then
        firstIdx (fun c => c == '\"') ((trimChars s).drop 1)
      else some 0) with
    | none => none
    | some j =>
      match firstIdx (fun c => c == ',') ((trimChars s).drop j) with
      | none => some [trimChars s]
      | some v =>
        (csvLoop ((trimChars s).drop (j + v + 1))).map
          (fun vs => trimChars ((trimChars s).take (j + v)) :: vs)
termination_by s.length
decreasing_by
  have dw : ∀ l : List Char, (l.dropWhile rsIsWs).length ≤ l.length := by
    intro l
    induction l with
    | nil => simp
    | cons c l ih =>
      by_cases h : rsIsWs c
      · simp only [List.dropWhile_cons, h, if_true]
        simp only [List.length_cons]
        omega
      · simp [List.dropWhile_cons, h]
  have key : ∀ l : List Char, (trimChars l).length ≤ l.length := by
    intro l
    unfold trimChars
    have h1 := dw l
    have h2 := dw (l.dropWhile rsIsWs).reverse
    simp only [List.length_reverse] at *
    omega
  have h1 := key s
  have h2 : 0 < s.length := List.length_pos.mpr hs
  simp only [List.length_drop]
  omega

/-- `csv_values` from `src/lib.rs`; `none` models the
`expect("Close quote")` panic on a quoted field with no closing quote. -/
def csv_values (s : String) : Option (List String) :=
  (csvLoop s.data).map (fun vs => vs.map (fun l => String.mk l))

/-- Naive splitting of a line at every comma (the reference point for the
amended C10 statement: what a tokenizer that kept the trailing empty field
would produce, before per-field trimming). -/
def splitComma : List Char → List (List Char)
  | [] => [[]]
  | c :: t =>
    if c = ',' then [] :: splitComma t
    else
      match splitComma t with
      | p :: ps => (c :: p) :: ps
      | [] => [[c]]

/-- The two error kinds of `Tagging::from_str`
(`"Unparseable tag"` / `"Invalid tag value"`). -/
inductive TagErr where
  | badCount
  | badValue
deriving DecidableEq

/-- `Tagging` from `src/lib.rs`, generic over the value type so that the
`f32` parse can stay an external parameter. -/
structure Tagging (V : Type) where
  family : String
  loc : String
  tag : String
  value : V
deriving DecidableEq

/-- `Tagging::from_str` from `src/lib.rs`, parameterised by the `f32`
parser `pf` (`f32::from_str`): tokenize, dispatch on the field count
(3 fields default the location to `""`), then parse the value.  The outer
`Option` is `csv_values`' panic. -/
def Tagging.fromStr {V : Type} (pf : String → Option V) (s : String) :
    Option (Except TagErr (Tagging V)) :=
  (csv_values s).map (fun values =>
    match values with
    | [family, tag, value] =>
      match pf value with
      | some v => Except.ok ⟨family, "", tag, v⟩
      | none => Except.error TagErr.badValue
    | [family, loc, tag, value] =>
      match pf value with
      | some v => Except.ok ⟨family, loc, tag, v⟩
      | none => Except.error TagErr.badValue
    | _ => Except.error TagErr.badCount)

/-- The literal `"position"`. -/
def positionPat : List Char := "position".data

/-- One attempted match of the regex `position\s+\x7b[^\x7d]*\x7d` at the
start of `s`: the literal `position`, then one or more whitespace
characters, then `\x7b`, then a run of non-`\x7d` characters, then
`\x7d` (the run and the closing brace are forced: the character class
excludes the closing brace, so the match ends at the first one).
Returns the remainder after the match. -/
def matchPos (s : List Char) : Option (List Char) :=
  if positionPat.isPrefixOf s then
    let s1 := s.drop positionPat.length
    let ws := s1.takeWhile rsIsWs
    if ws.isEmpty then none
    else
      match s1.dropWhile rsIsWs with
      | c :: t =>
        if c = Char.ofNat 123 then
          match t.dropWhile (fun d => !(d == Char.ofNat 125)) with
          | d :: t3 => if d = Char.ofNat 125 then some t3 else none
          | [] => none
        else none
      | [] => none
  else none

/-- `Regex::replace_all` with the empty replacement: scan left to right,
delete each (non-overlapping, leftmost) match, copy non-matching
characters. -/
def stripAll (s : List Char) : List Char :=
  match s with
  | [] => []
  | c :: t =>
    match h : matchPos (c :: t) with
    | some rest => stripAll rest
    | none => c :: stripAll t
termination_by s.length
decreasing_by
  · have key : ∀ s r : List Char, matchPos s = some r → r.length < s.length := by
      intro s r hm
      unfold matchPos at hm
      have hplen : positionPat.length = 8 := by decide
      by_cases hp : positionPat.isPrefixOf s
      · simp only [hp, if_true, hplen] at hm
        have hple : 8 ≤ s.length := by
          have := (List.isPrefixOf_iff_prefix.mp hp).length_le
          omega
        by_cases hw : ((s.drop 8).takeWhile rsIsWs).isEmpty
        · simp [hw] at hm
        · simp only [hw, if_false] at hm
          have hdw : ((s.drop 8).dropWhile rsIsWs).length ≤ (s.drop 8).length :=
            (List.dropWhile_sublist _).length_le
          rcases hc : (s.drop 8).dropWhile rsIsWs with _ | ⟨c, t⟩
          · simp [hc] at hm
          · rw [hc] at hm
            by_cases hbrace : c = Char.ofNat 123
            · simp only [hbrace, if_true] at hm
              have hdw2 : (t.dropWhile (fun d => !(d == Char.ofNat 125))).length ≤
                  t.length := (List.dropWhile_sublist _).length_le
              rcases hd : t.dropWhile (fun d => !(d == Char.ofNat 125)) with _ | ⟨d, t3⟩
              · simp [hd] at hm
              · rw [hd] at hm
                by_cases hdq : d = Char.ofNat 125
                · simp only [hdq] at hm
                  have hr : t3 = r := by simpa using hm
                  rw [hc] at hdw
                  rw [hd] at hdw2
                  rw [← hr]
                  simp only [List.length_cons, List.length_drop] at hdw hdw2 ⊢
                  omega
                · simp [hdq] at hm
            · simp [hbrace] at hm
      · simp [hp] at hm
    exact key _ _ h
  · simp only [List.length_cons]
    omega

/-- `read_family` from `src/lib.rs`, parameterised by the external
protobuf text-format parser `parse`
(`protobuf::text_format::parse_from_str`): when the text contains
`"position"`, every `position \x7b ... \x7d` block is stripped before
delegating, otherwise the text is passed through unchanged. -/
def read_family {E F : Type} (parse : List Char → Except E F) (s : List Char) :
    Except E F :=
  if hasSub positionPat s then parse (stripAll s) else parse s

/-- The per-family step of `GoogleFonts::family_by_font_file`:
`enumerate`, keep `Ok` parses, `flat_map` each font to
`(filename, family index)`.  `n` is the index of the first entry of the
remaining list. -/
def pairsAux {E : Type} (n : Nat) :
    List (String × Except E FamilyProto) → List (String × Nat)
  | [] => []
  | (_, r) :: rest =>
    (match r with
     | Except.ok f => f.fonts.map (fun ft => (ft.filename, n))
     | Except.error _ => []) ++ pairsAux (n + 1) rest

/-- `GoogleFonts::family_by_font_file` from `src/lib.rs`: the
font-file-name → family-index pairs, in discovery order, fed into a
`HashMap` (duplicate keys: the later pair wins — see `lastLookup`). -/
def family_by_font_file {E : Type}
    (fams : List (String × Except E FamilyProto)) : List (String × Nat) :=
  pairsAux 0 fams

/-- `HashMap::get` for a map collected from a pair iterator with
last-write-wins duplicate semantics: the value of the last pair whose key
matches. -/
def lastLookup (m : List (String × Nat)) (k : String) : Option Nat :=
  (m.reverse.find? (fun p => p.1 == k)).map (fun p => p.2)

/-- `GoogleFonts::family` from `src/lib.rs`: look the font's file name up
in the reverse index and return that family's path and parsed record.
The indexing-plus-`unwrap` of the Rust code is the `match` on
`fams.get?`; its non-`Ok` arms model the (unreachable) panic. -/
def familyOf {E : Type} (fams : List (String × Except E FamilyProto))
    (font : FontProto) : Option (String × FamilyProto) :=
  match lastLookup (family_by_font_file fams) font.filename with
  | none => none
  | some i =>
    match fams.get? i with
    | some (p, Except.ok f) => some (p, f)
    | _ => none

/-- Fixture: a font file name owned by two successfully parsed families. -/
def fontDup : FontProto := ⟨"Dup.ttf", "italic", 700⟩

/-- Fixture: first family owning `Dup.ttf`. -/
def famDupA : FamilyProto := ⟨"DupA", none, none, [⟨"Dup.ttf", "normal", 400⟩]⟩

/-- Fixture: second family owning `Dup.ttf`. -/
def famDupB : FamilyProto := ⟨"DupB", none, none, [fontDup]⟩

/-- Fixture families list: two `Ok` parses owning the same font file name
with a failed parse in between. -/
def famsC6 : List (String × Except Unit FamilyProto) :=
  [("pa", Except.ok famDupA), ("pe", Except.error ()), ("pb", Except.ok famDupB)]

/-- Fixture external parser for `read_family`: fails exactly when the
text still contains `"position"`. -/
def parseProbe (t : List Char) : Except Unit Unit :=
  if hasSub positionPat t then Except.error () else Except.ok ()

/-- Fixture float parser standing in for `f32::from_str`: accepts exactly
the string `"1"`. -/
def pfNat (v : String) : Option Nat := if v = "1" then some 1 else none

theorem reduceFirst_spec {α : Type} (score : α → Int) :
    ∀ (l : List α) (a : α), ∃ l₁ l₂,
      a :: l = l₁ ++ reduceFirst score a l :: l₂ ∧
      (∀ g ∈ a :: l, score g ≤ score (reduceFirst score a l)) ∧
      (∀ g ∈ l₁, score g < score (reduceFirst score a l)) := by
  intro l
  induction l with
  | nil =>
    intro a
    exact ⟨[], [], rfl, by simp [reduceFirst], by simp⟩
  | cons e l ih =>
    intro a
    have hstep : reduceFirst score a (e :: l) =
        reduceFirst score (if score a ≥ score e then a else e) l := by
      simp [reduceFirst, List.foldl_cons]
    by_cases h : score a ≥ score e
    · rw [if_pos h] at hstep
      obtain ⟨l₁, l₂, heq, hmax, hlt⟩ := ih a
      rw [hstep]
      cases l₁ with
      | nil =>
        simp only [List.nil_append] at heq
        obtain ⟨hb, hl2⟩ := List.cons.inj heq
        refine ⟨[], e :: l, ?_, ?_, by simp⟩
        · simp only [List.nil_append, ← hb]
        · intro g hg
          rw [List.mem_cons] at hg
          rcases hg with hg | hg
          · subst hg; rw [← hb]
          · rw [List.mem_cons] at hg
            rcases hg with hg | hg
            · subst hg; rw [← hb]; exact h
            · exact hmax g (by simp [hg])
      | cons x l₁' =>
        simp only [List.cons_append] at heq
        obtain ⟨hx, hl⟩ := List.cons.inj heq
        have ha : score a < score (reduceFirst score a l) := by
          have := hlt x (by simp)
          rw [← hx] at this
          exact this
        refine ⟨a :: e :: l₁', l₂, ?_, ?_, ?_⟩
        · simp only [List.cons_append, List.cons.injEq, true_and]
          exact hl
        · intro g hg
          rw [List.mem_cons] at hg
          rcases hg with hg | hg
          · rw [hg]; exact hmax a (by simp)
          · rw [List.mem_cons] at hg
            rcases hg with hg | hg
            · subst hg; omega
            · exact hmax g (by simp [hg])
        · intro g hg
          rw [List.mem_cons] at hg
          rcases hg with hg | hg
          · rw [hg]; exact ha
          · rw [List.mem_cons] at hg
            rcases hg with hg | hg
            · subst hg; omega
            · exact hlt g (by simp [hg])
    · rw [if_neg h] at hstep
      obtain ⟨l₁, l₂, heq, hmax, hlt⟩ := ih e
      rw [hstep]
      have he : score e ≤ score (reduceFirst score e l) := hmax e (by simp)
      refine ⟨a :: l₁, l₂, ?_, ?_, ?_⟩
      · simp only [List.cons_append]
        exact congrArg _ heq
      · intro g hg
        rw [List.mem_cons] at hg
        rcases hg with hg | hg
        · subst hg; omega
        · exact hmax g hg
      · intro g hg
        rw [List.mem_cons] at hg
        rcases hg with hg | hg
        · subst hg; omega
        · exact hlt g hg

theorem reduceLast_spec {α : Type} (pop : α → Int) :
    ∀ (l : List α) (a : α), ∃ l₁ l₂,
      a :: l = l₁ ++ reduceLast pop a l :: l₂ ∧
      (∀ g ∈ a :: l, pop g ≤ pop (reduceLast pop a l)) ∧
      (∀ g ∈ l₂, pop g < pop (reduceLast pop a l)) := by
  intro l
  induction l with
  | nil =>
    intro a
    exact ⟨[], [], rfl, by simp [reduceLast], by simp⟩
  | cons e l ih =>
    intro a
    have hstep : reduceLast pop a (e :: l) =
        reduceLast pop (if pop a > pop e then a else e) l := by
      simp [reduceLast, List.foldl_cons]
    by_cases h : pop a > pop e
    · rw [if_pos h] at hstep
      obtain ⟨l₁, l₂, heq, hmax, hlt⟩ := ih a
      rw [hstep]
      cases l₁ with
      | nil =>
        simp only [List.nil_append] at heq
        obtain ⟨hb, hl2⟩ := List.cons.inj heq
        refine ⟨[], e :: l, ?_, ?_, ?_⟩
        · simp only [List.nil_append, ← hb]
        · intro g hg
          rw [List.mem_cons] at hg
          rcases hg with hg | hg
          · subst hg; rw [← hb]
          · rw [List.mem_cons] at hg
            rcases hg with hg | hg
            · subst hg; rw [← hb]; omega
            · exact hmax g (by simp [hg])
        · intro g hg
          rw [List.mem_cons] at hg
          rcases hg with hg | hg
          · subst hg; rw [← hb]; omega
          · rw [← hl2] at hlt
            exact hlt g hg
      | cons x l₁' =>
        simp only [List.cons_append] at heq
        obtain ⟨hx, hl⟩ := List.cons.inj heq
        have ha : pop a ≤ pop (reduceLast pop a l) := hmax a (by simp)
        refine ⟨a :: e :: l₁', l₂, ?_, ?_, ?_⟩
        · simp only [List.cons_append, List.cons.injEq, true_and]
          exact hl
        · intro g hg
          rw [List.mem_cons] at hg
          rcases hg with hg | hg
          · rw [hg]; exact ha
          · rw [List.mem_cons] at hg
            rcases hg with hg | hg
            · subst hg; omega
            · exact hmax g (by simp [hg])
        · exact hlt
    · rw [if_neg h] at hstep
      obtain ⟨l₁, l₂, heq, hmax, hlt⟩ := ih e
      rw [hstep]
      have he : pop e ≤ pop (reduceLast pop e l) := hmax e (by simp)
      refine ⟨a :: l₁, l₂, ?_, ?_, ?_⟩
      · simp only [List.cons_append]
        exact congrArg _ heq
      · intro g hg
        rw [List.mem_cons] at hg
        rcases hg with hg | hg
        · subst hg; omega
        · exact hmax g hg
      · exact hlt

theorem select_font_eq_reduceFirst (family : FamilyProto) (ps : FontStyle)
    (pw : Int) :
    select_font family ps pw =
      match family.fonts with
      | [] => none
      | f :: rest => some (reduceFirst (fun g => exemplar_score g ps pw) f rest) := rfl

/-- `GoogleFonts::language`: lookup in the `LANGUAGES` map, modelled as an
id-keyed association list (the map's keys are the language ids). -/
def language (kb : List LanguageProto) (lang_id : String) : Option LanguageProto :=
  kb.find? (fun l => l.id == lang_id)

/-- `GoogleFonts::primary_language` from `src/lib.rs`, with the bundled
`LANGUAGES` knowledge base as the `kb` parameter.  The final
`unwrap_or_else(panic)` is modelled by returning `Option`: `none` is the
fatal-abort branch. -/
def primary_language (kb : List LanguageProto) (family : FamilyProto) :
    Option LanguageProto :=
  let pl : Option LanguageProto := none
  let pl := if pl.isNone && family.primary_language.isSome then
      match language kb (family.primary_language.getD "") with
      | some lang => some lang
      | none => pl
    else pl
  let pl := if pl.isNone && family.primary_script.isSome then
      match kb.filter
          (fun l => l.script.isSome &&
            (l.script.getD "" == family.primary_script.getD "")) with
      | [] => pl
      | x :: xs => some (reduceLast LanguageProto.population x xs)
    else pl
  let pl := if pl.isNone then language kb "en_Latn" else pl
  pl

/-- Fixture: a normal-400 font. -/
def fontA : FontProto := ⟨"A.ttf", "normal", 400⟩

/-- Fixture: a second normal-400 font, tied in score with `fontA`. -/
def fontB : FontProto := ⟨"B.ttf", "normal", 400⟩

/-- Fixture: an italic light font, scoring lower for Normal/400. -/
def fontC : FontProto := ⟨"C.ttf", "italic", 100⟩

/-- Fixture family with a score tie between its first two fonts. -/
def famABC : FamilyProto := ⟨"Fam", none, none, [fontA, fontB, fontC]⟩

/-- Fixture language: Japanese. -/
def langJa : LanguageProto := ⟨"ja_Jpan", some "Jpan", 100⟩

/-- Fixture language: same script and same population as `langJa`. -/
def langX : LanguageProto := ⟨"x_Jpan", some "Jpan", 100⟩

/-- Fixture language: the `en_Latn` fallback. -/
def langEn : LanguageProto := ⟨"en_Latn", some "Latn", 5⟩

/-- Fixture knowledge base with a population tie on script `Jpan`. -/
def kbJ : List LanguageProto := [langJa, langX, langEn]

/-- Fixture family declaring an unknown primary language and script
`Jpan` (mirroring the repository's `kosugimaru` test data). -/
def famJpan : FamilyProto := ⟨"Kosugi", some "Invalid", some "Jpan", []⟩

theorem isSome_fallback (o fb : Option LanguageProto) (h : fb.isSome = true) :
    (if o.isNone then fb else o).isSome = true := by
  cases o <;> simp [h]

/-- C1: `select_font` returns `none` iff the family's font list is empty;
otherwise it returns a font of maximal `exemplar_score`, and on ties the
earliest such font in list order (everything strictly before the returned
font scores strictly lower, a later candidate replaces the current best
only on a strictly greater score). -/
theorem c1_select_font_none_iff_empty_and_first_max (family : FamilyProto)
    (ps : FontStyle) (pw : Int) :
    (select_font family ps pw = none ↔ family.fonts = []) ∧
    ∀ f, select_font family ps pw = some f →
      ∃ l₁ l₂, family.fonts = l₁ ++ f :: l₂ ∧
        (∀ g ∈ family.fonts, exemplar_score g ps pw ≤ exemplar_score f ps pw) ∧
        (∀ g ∈ l₁, exemplar_score g ps pw < exemplar_score f ps pw) := by
  constructor
  · cases hf : family.fonts with
    | nil => simp [select_font, hf]
    | cons x rest => simp [select_font, hf]
  · intro f hsel
    cases hf : family.fonts with
    | nil => simp [select_font, hf] at hsel
    | cons x rest =>
      have hred : select_font family ps pw =
          some (reduceFirst (fun g => exemplar_score g ps pw) x rest) := by
        rw [select_font_eq_reduceFirst, hf]
      rw [hred] at hsel
      have hff := Option.some.inj hsel
      rw [← hff]
      exact reduceFirst_spec (fun g => exemplar_score g ps pw) rest x

/-- Witness for C1 at a concrete family: the first of two equal-scoring
fonts wins. -/
theorem c1_select_font_none_iff_empty_and_first_max_witness :
    ∃ l₁ l₂, famABC.fonts = l₁ ++ fontA :: l₂ ∧
      (∀ g ∈ famABC.fonts,
        exemplar_score g FontStyle.Normal 400 ≤
          exemplar_score fontA FontStyle.Normal 400) ∧
      (∀ g ∈ l₁,
        exemplar_score g FontStyle.Normal 400 <
          exemplar_score fontA FontStyle.Normal 400) :=
  (c1_select_font_none_iff_empty_and_first_max famABC FontStyle.Normal 400).2
    fontA (by decide)

/-- C2: the score is the sum of a +16 style-match term, a minus
`|weight difference| / 100` distance term (integer division of the
non-negative absolute difference), a +1 strictly-heavier term and a +2
variable-font (`"]."` in the file name) term. -/
theorem c2_exemplar_score_is_sum_of_terms (font : FontProto) (ps : FontStyle)
    (pw : Int) :
    exemplar_score font ps pw =
      (if font.style = ps.style then (16 : Int) else 0)
      - (((font.weight - pw).natAbs / 100 : Nat) : Int)
      + (if font.weight > pw then 1 else 0)
      + (if strContains font.filename "]." then 2 else 0) := by
  unfold exemplar_score
  by_cases h1 : font.style = ps.style <;>
    by_cases h2 : font.weight > pw <;>
      by_cases h3 : strContains font.filename "]." = true <;>
        simp [h1, h2, h3]

/-- C9: `exemplar` is extensionally `select_font` at Normal/400. -/
theorem c9_exemplar_eq_select_font_normal_400 (family : FamilyProto) :
    exemplar family = select_font family FontStyle.Normal 400 := rfl

/-- C3: `primary_language` resolves by (1) a declared primary-language id
found in the knowledge base, else (2) the maximal-population language with
the declared primary script, later entries winning exact population ties
(everything after the winner has strictly smaller population), else (3)
the `en_Latn` lookup. -/
theorem c3_primary_language_resolution_order (kb : List LanguageProto)
    (family : FamilyProto) :
    (∀ lid l, family.primary_language = some lid → language kb lid = some l →
      primary_language kb family = some l) ∧
    ((∀ lid, family.primary_language = some lid → language kb lid = none) →
      ∀ sid x xs, family.primary_script = some sid →
        kb.filter (fun l => l.script.isSome && (l.script.getD "" == sid)) = x :: xs →
        primary_language kb family =
          some (reduceLast LanguageProto.population x xs) ∧
        ∃ l₁ l₂, x :: xs = l₁ ++ reduceLast LanguageProto.population x xs :: l₂ ∧
          (∀ g ∈ x :: xs,
            g.population ≤ (reduceLast LanguageProto.population x xs).population) ∧
          (∀ g ∈ l₂,
            g.population < (reduceLast LanguageProto.population x xs).population)) ∧
    ((∀ lid, family.primary_language = some lid → language kb lid = none) →
      (∀ sid, family.primary_script = some sid →
        kb.filter (fun l => l.script.isSome && (l.script.getD "" == sid)) = []) →
      primary_language kb family = language kb "en_Latn") := by
  refine ⟨?_, ?_, ?_⟩
  · intro lid l hlid hlook
    simp [primary_language, hlid, hlook]
  · intro h1 sid x xs hsid hfil
    constructor
    · cases hpl : family.primary_language with
      | none => simp [primary_language, hpl, hsid, hfil]
      | some lid => simp [primary_language, hpl, h1 lid hpl, hsid, hfil]
    · exact reduceLast_spec LanguageProto.population xs x
  · intro h1 h2
    cases hps : family.primary_script with
    | none =>
      cases hpl : family.primary_language with
      | none => simp [primary_language, hpl, hps]
      | some lid => simp [primary_language, hpl, h1 lid hpl, hps]
    | some sid =>
      cases hpl : family.primary_language with
      | none => simp [primary_language, hpl, hps, h2 sid hps]
      | some lid => simp [primary_language, hpl, h1 lid hpl, hps, h2 sid hps]

/-- Witness for C3 at a concrete knowledge base: script scan with an
exact population tie, the later entry wins. -/
theorem c3_primary_language_resolution_order_witness :
    primary_language kbJ famJpan = some langX := by
  have h1 : ∀ lid, famJpan.primary_language = some lid → language kbJ lid = none := by
    intro lid h
    have hl : lid = "Invalid" := by
      simp [famJpan] at h
      exact h.symm
    rw [hl]
    decide
  have hfil : kbJ.filter
      (fun l => l.script.isSome && (l.script.getD "" == "Jpan")) = [langJa, langX] := by
    decide
  have hmain :=
    ((c3_primary_language_resolution_order kbJ famJpan).2.1 h1 "Jpan" langJa [langX]
      rfl hfil).1
  rw [hmain]
  decide

/-- C7: when the knowledge base contains `en_Latn`, `primary_language`
always produces a language (the fatal-abort branch is unreachable). -/
theorem c7_primary_language_total (kb : List LanguageProto)
    (family : FamilyProto) (l : LanguageProto)
    (h : language kb "en_Latn" = some l) :
    (primary_language kb family).isSome = true := by
  unfold primary_language
  exact isSome_fallback _ _ (by rw [h]; rfl)

/-- Witness for C7 at a concrete knowledge base containing `en_Latn`. -/
theorem c7_primary_language_total_witness :
    (primary_language kbJ famABC).isSome = true :=
  c7_primary_language_total kbJ famABC langEn (by decide)

theorem dropWhile_eq_self_of_head (p : Char → Bool) (l : List Char)
    (h : ∀ c, l.head? = some c → p c = false) : l.dropWhile p = l := by
  cases l with
  | nil => rfl
  | cons c t => simp [List.dropWhile_cons, h c rfl]

theorem getLast?_dropWhile (p : Char → Bool) (l : List Char) :
    l.dropWhile p = [] ∨ (l.dropWhile p).getLast? = l.getLast? := by
  induction l with
  | nil => left; rfl
  | cons c t ih =>
    by_cases h : p c
    · rw [List.dropWhile_cons, if_pos h]
      cases t with
      | nil => left; rfl
      | cons d u =>
        rcases ih with ih | ih
        · left; exact ih
        · right
          rw [ih, List.getLast?_cons_cons]
    · rw [List.dropWhile_cons, if_neg h]
      right; rfl

theorem trimChars_eq_dropWhile_of_last (l : List Char)
    (h : ∀ c, l.getLast? = some c → rsIsWs c = false) :
    trimChars l = l.dropWhile rsIsWs := by
  unfold trimChars
  rcases getLast?_dropWhile rsIsWs l with hu | hu
  · rw [hu]; rfl
  · have hh : ∀ c, (l.dropWhile rsIsWs).reverse.head? = some c → rsIsWs c = false := by
      intro c hc
      rw [List.head?_reverse, hu] at hc
      exact h c hc
    rw [dropWhile_eq_self_of_head _ _ hh, List.reverse_reverse]

theorem trimChars_eq_self (l : List Char)
    (hh : ∀ c, l.head? = some c → rsIsWs c = false)
    (hl : ∀ c, l.getLast? = some c → rsIsWs c = false) :
    trimChars l = l := by
  rw [trimChars_eq_dropWhile_of_last l hl, dropWhile_eq_self_of_head _ _ hh]

theorem dropWhile_true_append (p : Char → Bool) (w x : List Char)
    (hw : ∀ c ∈ w, p c = true) : (w ++ x).dropWhile p = x.dropWhile p := by
  induction w with
  | nil => rfl
  | cons c t ih =>
    rw [List.cons_append, List.dropWhile_cons, if_pos (hw c (by simp))]
    exact ih (fun d hd => hw d (by simp [hd]))

theorem trimChars_ws_append (w x : List Char) (hw : ∀ c ∈ w, rsIsWs c = true) :
    trimChars (w ++ x) = trimChars x := by
  unfold trimChars
  rw [dropWhile_true_append rsIsWs w x hw]

theorem firstIdx_some_decomp (p : Char → Bool) (l : List Char) (v : Nat)
    (h : firstIdx p l = some v) :
    ∃ pre c post, l = pre ++ c :: post ∧ pre.length = v ∧ p c = true ∧
      ∀ d ∈ pre, p d = false := by
  induction l generalizing v with
  | nil => simp [firstIdx] at h
  | cons c t ih =>
    by_cases hc : p c
    · rw [firstIdx, if_pos hc] at h
      have h0 : (0 : Nat) = v := Option.some.inj h
      exact ⟨[], c, t, rfl, h0, hc, by simp⟩
    · rw [firstIdx, if_neg hc] at h
      obtain ⟨w, hw, hv⟩ := Option.map_eq_some'.mp h
      obtain ⟨pre, d, post, hl, hlen, hpd, hpre⟩ := ih w hw
      refine ⟨c :: pre, d, post, by rw [hl]; rfl, by simp [hlen, ← hv], hpd, ?_⟩
      intro e he
      rw [List.mem_cons] at he
      rcases he with he | he
      · rw [he]
        exact Bool.eq_false_iff.mpr hc
      · exact hpre e he

theorem firstIdx_isSome_of_mem (p : Char → Bool) (l : List Char) (c : Char)
    (hc : c ∈ l) (hp : p c = true) : (firstIdx p l).isSome = true := by
  induction l with
  | nil => cases hc
  | cons d t ih =>
    by_cases hd : p d
    · simp [firstIdx, hd]
    · rw [List.mem_cons] at hc
      rcases hc with hc | hc
      · rw [← hc] at hd
        exact absurd hp hd
      · rw [firstIdx, if_neg hd, Option.isSome_map']
        exact ih hc

theorem firstIdx_append_none (p : Char → Bool) (l₁ l₂ : List Char)
    (h : ∀ c ∈ l₁, p c = false) :
    firstIdx p (l₁ ++ l₂) = (firstIdx p l₂).map (· + l₁.length) := by
  induction l₁ with
  | nil =>
    rw [List.nil_append]
    cases h2 : firstIdx p l₂ <;> simp [h2]
  | cons c t ih =>
    rw [List.cons_append, firstIdx,
      if_neg (by simp [h c (by simp)] : ¬ p c = true),
      ih (fun d hd => h d (by simp [hd]))]
    cases firstIdx p l₂ <;> simp <;> omega

theorem firstIdx_split (p : Char → Bool) (pre : List Char) (c : Char)
    (post : List Char) (hpre : ∀ d ∈ pre, p d = false) (hc : p c = true) :
    firstIdx p (pre ++ c :: post) = some pre.length := by
  rw [firstIdx_append_none p pre (c :: post) hpre, firstIdx, if_pos hc]
  simp

theorem splitComma_ne_nil (l : List Char) : splitComma l ≠ [] := by
  cases l with
  | nil => simp [splitComma]
  | cons c t =>
    by_cases h : c = ','
    · simp [splitComma, h]
    · simp only [splitComma, h, if_false]
      cases splitComma t <;> simp

theorem splitComma_append (p q : List Char) (hp : ∀ c ∈ p, c ≠ ',') :
    splitComma (p ++ ',' :: q) = p :: splitComma q := by
  induction p with
  | nil => simp [splitComma]
  | cons c t ih =>
    rw [List.cons_append]
    have hc : ¬ c = ',' := hp c (by simp)
    simp only [splitComma, hc, if_false]
    rw [ih (fun d hd => hp d (by simp [hd]))]

theorem csvLoop_cons_step (s : List Char) (hs : s ≠ []) (j v : Nat)
    (hq : (if (trimChars s).head? = some '\"' then
        firstIdx (fun c => c == '\"') ((trimChars s).drop 1)
      else some 0) = some j)
    (hv : firstIdx (fun c => c == ',') ((trimChars s).drop j) = some v) :
    csvLoop s = (csvLoop ((trimChars s).drop (j + v + 1))).map
      (fun vs => trimChars ((trimChars s).take (j + v)) :: vs) := by
  rw [csvLoop, dif_neg hs]
  simp only [hq, hv]

theorem csvLoop_final_step (s : List Char) (hs : s ≠ []) (j : Nat)
    (hq : (if (trimChars s).head? = some '\"' then
        firstIdx (fun c => c == '\"') ((trimChars s).drop 1)
      else some 0) = some j)
    (hv : firstIdx (fun c => c == ',') ((trimChars s).drop j) = none) :
    csvLoop s = some [trimChars s] := by
  rw [csvLoop, dif_neg hs]
  simp only [hq, hv]

theorem csvLoop_quotefree_trailing (n : Nat) :
    ∀ s : List Char, s.length ≤ n → (∀ c ∈ s, c ≠ '\"') →
      s.getLast? = some ',' →
      csvLoop s = some (((splitComma s).map trimChars).dropLast) := by
  induction n with
  | zero =>
    intro s hlen _ hlast
    have hnil : s = [] := List.length_eq_zero.mp (Nat.le_zero.mp hlen)
    rw [hnil] at hlast
    simp at hlast
  | succ n ih =>
    intro s hlen hq hlast
    have hs : s ≠ [] := by
      intro h0
      rw [h0] at hlast
      simp at hlast
    have hlastws : ∀ c, s.getLast? = some c → rsIsWs c = false := by
      intro c hc
      rw [hlast] at hc
      have hcc : ',' = c := Option.some.inj hc
      rw [← hcc]
      decide
    have htrim : trimChars s = s.dropWhile rsIsWs :=
      trimChars_eq_dropWhile_of_last s hlastws
    have hswt : s.takeWhile rsIsWs ++ s.dropWhile rsIsWs = s := by simp
    have hwws : ∀ c ∈ s.takeWhile rsIsWs, rsIsWs c = true :=
      fun c hc => List.mem_takeWhile_imp hc
    have hmem_t : ∀ c ∈ s.dropWhile rsIsWs, c ∈ s := fun c hc =>
      ((List.dropWhile_suffix rsIsWs).sublist.subset) hc
    have htne : s.dropWhile rsIsWs ≠ [] := by
      intro h0
      have hcomma : ',' ∈ s := List.mem_of_getLast?_eq_some hlast
      rw [← hswt, h0, List.append_nil] at hcomma
      exact absurd (hwws ',' hcomma) (by decide)
    have htlast : (s.dropWhile rsIsWs).getLast? = some ',' := by
      rw [← hswt] at hlast
      rwa [List.getLast?_append_of_ne_nil _ htne] at hlast
    have hmemcomma : ',' ∈ s.dropWhile rsIsWs :=
      List.mem_of_getLast?_eq_some htlast
    have hfis := firstIdx_isSome_of_mem (fun c => c == ',')
      (s.dropWhile rsIsWs) ',' hmemcomma (by simp)
    obtain ⟨v, hv⟩ := Option.isSome_iff_exists.mp hfis
    obtain ⟨pre, c0, post, hdecomp, hprelen, hc0, hpre⟩ :=
      firstIdx_some_decomp _ _ v hv
    have hc0' : c0 = ',' := by simpa using hc0
    rw [hc0'] at hdecomp
    have hheadq : ¬ (trimChars s).head? = some '\"' := by
      rw [htrim, hdecomp]
      cases pre with
      | nil =>
        simp only [List.nil_append, List.head?_cons]
        intro hcc
        exact absurd (Option.some.inj hcc) (by decide)
      | cons a pr =>
        simp only [List.cons_append, List.head?_cons]
        intro hcc
        have ha : a = '\"' := Option.some.inj hcc
        have hain : a ∈ s := hmem_t a (by rw [hdecomp]; simp)
        exact hq a hain ha
    have hj : (if (trimChars s).head? = some '\"' then
        firstIdx (fun c => c == '\"') ((trimChars s).drop 1)
      else some 0) = some 0 := if_neg hheadq
    have hv0 : firstIdx (fun c => c == ',') ((trimChars s).drop 0) = some v := by
      rw [htrim, List.drop_zero]
      exact hv
    rw [csvLoop_cons_step s hs 0 v hj hv0]
    have htake : (trimChars s).take (0 + v) = pre := by
      rw [htrim, hdecomp, Nat.zero_add]
      exact List.take_left' hprelen
    have hdrop : (trimChars s).drop (0 + v + 1) = post := by
      rw [htrim, hdecomp, Nat.zero_add]
      have hassoc : pre ++ ',' :: post = (pre ++ [',']) ++ post := by simp
      rw [hassoc]
      exact List.drop_left' (by simp [hprelen])
    rw [htake, hdrop]
    have hsdecomp : s = (s.takeWhile rsIsWs ++ pre) ++ ',' :: post := by
      rw [List.append_assoc, ← hdecomp, hswt]
    have hnocomma : ∀ c ∈ s.takeWhile rsIsWs ++ pre, c ≠ ',' := by
      intro c hc
      rw [List.mem_append] at hc
      rcases hc with hc | hc
      · intro hcc
        rw [hcc] at hc
        exact absurd (hwws ',' hc) (by decide)
      · intro hcc
        have hf := hpre c hc
        rw [hcc] at hf
        simp at hf
    have hsplit : splitComma s = (s.takeWhile rsIsWs ++ pre) :: splitComma post := by
      conv_lhs => rw [hsdecomp]
      exact splitComma_append _ _ hnocomma
    have htrimhead : trimChars (s.takeWhile rsIsWs ++ pre) = trimChars pre :=
      trimChars_ws_append _ _ hwws
    cases post with
    | nil =>
      have h0 : csvLoop ([] : List Char) = some [] := by
        simp [csvLoop]
      simp [h0, hsplit, htrimhead, splitComma]
    | cons d ds =>
      have hpostlast : (d :: ds).getLast? = some ',' := by
        rw [hsdecomp] at hlast
        rw [List.getLast?_append_of_ne_nil _ (by simp : (',' :: d :: ds) ≠ [])] at hlast
        rwa [List.getLast?_cons_cons] at hlast
      have hpostq : ∀ c ∈ d :: ds, c ≠ '\"' := by
        intro c hc
        apply hq
        rw [hsdecomp]
        exact List.mem_append_right _ (List.mem_cons_of_mem _ hc)
      have hpostlen : (d :: ds).length ≤ n := by
        have hslen := congrArg List.length hsdecomp
        simp only [List.length_append, List.length_cons] at hslen ⊢
        omega
      have hihpost := ih (d :: ds) hpostlen hpostq hpostlast
      rw [hihpost, hsplit]
      have hne : (splitComma (d :: ds)).map trimChars ≠ [] := by
        intro h0
        rw [List.map_eq_nil_iff] at h0
        exact splitComma_ne_nil _ h0
      simp [htrimhead, List.dropLast_cons_of_ne_nil hne]

theorem csvLoop_quoted_field (content mid s' : List Char)
    (hqc : ∀ c ∈ content, c ≠ '\"')
    (hclast : content.getLast? ≠ some ',')
    (hmidc : ∀ c ∈ mid, c ≠ ',')
    (hse : ∀ c, s'.getLast? = some c → rsIsWs c = false) :
    csvLoop ('\"' :: content ++ '\"' :: mid ++ ',' :: s') =
      (csvLoop s').map
        (fun vs => trimChars ('\"' :: content ++ '\"' :: mid) :: vs) := by
  have hs : ('\"' :: content ++ '\"' :: mid ++ ',' :: s') ≠ [] := by simp
  have hshape : ('\"' :: content ++ '\"' :: mid ++ ',' :: s') =
      ('\"' :: content ++ '\"' :: mid) ++ (',' :: s') := by simp
  have hlastne : ∀ c, ('\"' :: content ++ '\"' :: mid ++ ',' :: s').getLast? = some c →
      rsIsWs c = false := by
    intro c hc
    rw [hshape, List.getLast?_append_of_ne_nil _ (by simp : (',' :: s') ≠ [])] at hc
    cases hs' : s' with
    | nil =>
      rw [hs'] at hc
      have hcc : ',' = c := by simpa using hc
      rw [← hcc]
      decide
    | cons d ds =>
      rw [hs', List.getLast?_cons_cons] at hc
      exact hse c (by rw [hs']; exact hc)
  have hheadne : ∀ c, ('\"' :: content ++ '\"' :: mid ++ ',' :: s').head? = some c →
      rsIsWs c = false := by
    intro c hc
    have h2 : '\"' = c := Option.some.inj hc
    rw [← h2]
    decide
  have htrim : trimChars ('\"' :: content ++ '\"' :: mid ++ ',' :: s') =
      '\"' :: content ++ '\"' :: mid ++ ',' :: s' :=
    trimChars_eq_self _ hheadne hlastne
  have hj : (if (trimChars ('\"' :: content ++ '\"' :: mid ++ ',' :: s')).head? =
        some '\"' then
      firstIdx (fun c => c == '\"')
        ((trimChars ('\"' :: content ++ '\"' :: mid ++ ',' :: s')).drop 1)
    else some 0) = some content.length := by
    rw [htrim]
    rw [if_pos (show ('\"' :: content ++ '\"' :: mid ++ ',' :: s').head? =
      some '\"' from rfl)]
    have hdrop1 : ('\"' :: content ++ '\"' :: mid ++ ',' :: s').drop 1 =
        content ++ '\"' :: (mid ++ ',' :: s') := by
      simp
    rw [hdrop1]
    exact firstIdx_split _ content '\"' _
      (fun d hd => by simpa using hqc d hd) (by simp)
  have hv : firstIdx (fun c => c == ',')
      ((trimChars ('\"' :: content ++ '\"' :: mid ++ ',' :: s')).drop content.length) =
      some (mid.length + 2) := by
    rw [htrim]
    have hmid2 : ∀ d ∈ '\"' :: mid, (d == ',') = false := by
      intro d hd
      rw [List.mem_cons] at hd
      rcases hd with hd | hd
      · rw [hd]; decide
      · simpa using hmidc d hd
    rcases List.eq_nil_or_concat content with hnil | ⟨ci, cl, hcc⟩
    · rw [hnil]
      simp only [List.length_nil, List.drop_zero]
      rw [show (['\"'] ++ '\"' :: mid ++ ',' :: s') =
        ('\"' :: '\"' :: mid) ++ ',' :: s' from by simp]
      have hpre0 : ∀ d ∈ '\"' :: '\"' :: mid, (d == ',') = false := by
        intro d hd
        rw [List.mem_cons] at hd
        rcases hd with hd | hd
        · rw [hd]; decide
        · exact hmid2 d hd
      have hres := firstIdx_split (fun c => c == ',') ('\"' :: '\"' :: mid) ',' s'
        hpre0 (by simp)
      rw [hres]
      simp
    · rw [List.concat_eq_append] at hcc
      have hclne : cl ≠ ',' := by
        intro h0
        apply hclast
        rw [hcc, h0]
        exact List.getLast?_concat _
      have hsplit2 : ('\"' :: content ++ '\"' :: mid ++ ',' :: s') =
          ('\"' :: ci) ++ (cl :: '\"' :: mid ++ ',' :: s') := by
        rw [hcc]; simp
      have hdropn : ('\"' :: content ++ '\"' :: mid ++ ',' :: s').drop content.length =
          cl :: '\"' :: mid ++ ',' :: s' := by
        rw [hsplit2]
        exact List.drop_left' (by simp [hcc])
      rw [hdropn]
      have hre : cl :: '\"' :: mid ++ ',' :: s' = (cl :: '\"' :: mid) ++ ',' :: s' := by
        simp
      rw [hre]
      have hpre : ∀ d ∈ cl :: '\"' :: mid, (d == ',') = false := by
        intro d hd
        rw [List.mem_cons] at hd
        rcases hd with hd | hd
        · rw [hd]
          simpa using hclne
        · exact hmid2 d hd
      have hres := firstIdx_split (fun c => c == ',') (cl :: '\"' :: mid) ',' s'
        hpre (by simp)
      rw [hres]
      simp
  rw [csvLoop_cons_step _ hs content.length (mid.length + 2) hj hv]
  have htk : (trimChars ('\"' :: content ++ '\"' :: mid ++ ',' :: s')).take
      (content.length + (mid.length + 2)) = '\"' :: content ++ '\"' :: mid := by
    rw [htrim, hshape]
    exact List.take_left' (by simp [List.length_append]; try omega)
  have hdr : (trimChars ('\"' :: content ++ '\"' :: mid ++ ',' :: s')).drop
      (content.length + (mid.length + 2) + 1) = s' := by
    rw [htrim]
    have hre2 : ('\"' :: content ++ '\"' :: mid ++ ',' :: s') =
        (('\"' :: content ++ '\"' :: mid) ++ [',']) ++ s' := by simp
    rw [hre2]
    exact List.drop_left' (by simp [List.length_append]; try omega)
  rw [htk, hdr]

/-- C4, counterexample: the tokenizer does not strip the enclosing
double-quotes — the first field of `tokenize("\"\",t,1")` is the
two-character string consisting of two quotes, not the empty string the
claim requires. -/
theorem c4_counterexample_quotes_not_stripped :
    csv_values "\"\",t,1" = some ["\"\"", "t", "1"] ∧ ("\"\"" : String) ≠ "" := by
  constructor
  · simp [csv_values, csvLoop, trimChars, rsIsWs, firstIdx]
  · decide

/-- C4 (amended): whitespace is trimmed around fields outside quotes,
but a field that starts with a double-quote is returned *including* its
enclosing double-quotes; it is not the case that such a field is always
parsed as a unit: because the comma search starts one character before
the closing quote, the guarantee holds exactly when the quoted content
does not end in a comma.  Concretely,
`tokenize("\"\",t,1") = ["\"\"", "t", "1"]` and the Georama line gives 4
fields whose second is `"ital,wght@1,100"` with the quotes kept; in
general a trimmed remainder starting with a quoted field `"content"`
(content quote-free and not ending in a comma) followed by comma-free
`mid`, a separator comma and a rest with no trailing whitespace is
tokenized as the single trimmed field `"content" ++ mid` (inner commas
of `content` preserved) followed by the fields of the rest; when the
content does end in a comma the tokenizer splits inside the quotes and
can abort on a then-unterminated quote, as on `tokenize("\"a,\",z")`. -/
theorem c4_amended_quotes_kept :
    csv_values "\"\",t,1" = some ["\"\"", "t", "1"] ∧
    csv_values "Georama, \"ital,wght@1,100\", /quant/stroke_width_min, 16.97" =
      some ["Georama", "\"ital,wght@1,100\"", "/quant/stroke_width_min", "16.97"] ∧
    (∀ content mid s' : List Char,
      (∀ c ∈ content, c ≠ '\"') →
      content.getLast? ≠ some ',' →
      (∀ c ∈ mid, c ≠ ',') →
      (∀ c, s'.getLast? = some c → rsIsWs c = false) →
      csvLoop ('\"' :: content ++ '\"' :: mid ++ ',' :: s') =
        (csvLoop s').map
          (fun vs => trimChars ('\"' :: content ++ '\"' :: mid) :: vs)) ∧
    csv_values "\"a,\",z" = none := by
  refine ⟨?_, ?_, ?_, ?_⟩
  · simp [csv_values, csvLoop, trimChars, rsIsWs, firstIdx]
  · simp [csv_values, csvLoop, trimChars, rsIsWs, firstIdx]
  · intro content mid s' h1 h2 h3 h4
    exact csvLoop_quoted_field content mid s' h1 h2 h3 h4
  · simp [csv_values, csvLoop, trimChars, rsIsWs, firstIdx]

/-- Witness for C4 (amended) at a concrete quoted field with an inner
comma. -/
theorem c4_amended_quotes_kept_witness :
    csvLoop ('\"' :: "a,b".data ++ '\"' :: "".data ++ ',' :: "z".data) =
      (csvLoop "z".data).map
        (fun vs => trimChars ('\"' :: "a,b".data ++ '\"' :: "".data) :: vs) :=
  c4_amended_quotes_kept.2.2.1 "a,b".data "".data "z".data
    (by decide) (by decide) (by decide)
    (by
      intro c hc
      have h2 : 'z' = c := by simpa using hc
      rw [← h2]
      decide)

/-- C8: `Tagging::from_str` tokenizes the line, accepts exactly 3 fields
as (family, tag, value) with the location defaulting to `""`, exactly 4
fields as (family, location, tag, value), errors on any other field
count, and errors when the value does not parse as a float. -/
theorem c8_tagging_parse_dispatch {V : Type} (pf : String → Option V)
    (s : String) (vs : List String) (h : csv_values s = some vs) :
    (∀ f t v, vs = [f, t, v] → Tagging.fromStr pf s =
      some (match pf v with
            | some x => Except.ok ⟨f, "", t, x⟩
            | none => Except.error TagErr.badValue)) ∧
    (∀ f l t v, vs = [f, l, t, v] → Tagging.fromStr pf s =
      some (match pf v with
            | some x => Except.ok ⟨f, l, t, x⟩
            | none => Except.error TagErr.badValue)) ∧
    (vs.length ≠ 3 → vs.length ≠ 4 →
      Tagging.fromStr pf s = some (Except.error TagErr.badCount)) := by
  refine ⟨?_, ?_, ?_⟩
  · intro f t v hvs
    unfold Tagging.fromStr
    rw [h, hvs]
    rfl
  · intro f l t v hvs
    unfold Tagging.fromStr
    rw [h, hvs]
    rfl
  · intro h3 h4
    unfold Tagging.fromStr
    rw [h]
    rcases vs with _ | ⟨a, _ | ⟨b, _ | ⟨c, _ | ⟨d, _ | ⟨e, rest⟩⟩⟩⟩⟩
    · rfl
    · rfl
    · rfl
    · exact absurd rfl h3
    · exact absurd rfl h4
    · rfl

/-- Witness for C8 at a concrete 3-field line. -/
theorem c8_tagging_parse_dispatch_witness :
    Tagging.fromStr pfNat "fam,tag,1" =
      some (Except.ok ⟨"fam", "", "tag", (1 : Nat)⟩) := by
  have h : csv_values "fam,tag,1" = some ["fam", "tag", "1"] := by
    simp [csv_values, csvLoop, trimChars, rsIsWs, firstIdx]
  have happ := (c8_tagging_parse_dispatch pfNat "fam,tag,1" ["fam", "tag", "1"] h).1
    "fam" "tag" "1" rfl
  rw [happ]
  rfl

/-- C10, counterexample: on `"a,,"` — a line ending with an unquoted
separator comma — the tokenizer still emits an *empty* final field
(`["a", ""]`), so empty fields are representable in final position,
contrary to the claim's conclusion. -/
theorem c10_counterexample_trailing_empty_possible :
    csv_values "a,," = some ["a", ""] ∧ ["a", ""].getLast? = some "" := by
  constructor
  · simp [csv_values, csvLoop, trimChars, rsIsWs, firstIdx]
  · rfl

/-- C10 (amended): `tokenize("a,") = ["a"]` and `tokenize(",a") =
["", "a"]`; in general, on a quote-free line ending with a comma the
tokenizer produces the comma-split, per-field-trimmed fields with exactly
the final empty field (the one arising from the trailing comma) dropped —
an empty field arising from an *earlier* separator can still end up in
final position. -/
theorem c10_amended_trailing_comma_dropped :
    csv_values "a," = some ["a"] ∧
    csv_values ",a" = some ["", "a"] ∧
    ∀ s : List Char, (∀ c ∈ s, c ≠ '\"') → s.getLast? = some ',' →
      csvLoop s = some (((splitComma s).map trimChars).dropLast) := by
  refine ⟨?_, ?_, ?_⟩
  · simp [csv_values, csvLoop, trimChars, rsIsWs, firstIdx]
  · simp [csv_values, csvLoop, trimChars, rsIsWs, firstIdx]
  · intro s hq hl
    exact csvLoop_quotefree_trailing s.length s le_rfl hq hl

/-- Witness for C10 (amended) at a concrete quote-free line ending in a
comma. -/
theorem c10_amended_trailing_comma_dropped_witness :
    csvLoop "x,y,".data =
      some (((splitComma "x,y,".data).map trimChars).dropLast) :=
  c10_amended_trailing_comma_dropped.2.2 "x,y,".data (by decide) (by decide)

theorem matchPos_length_lt (s r : List Char) (hm : matchPos s = some r) :
    r.length < s.length := by
  unfold matchPos at hm
  have hplen : positionPat.length = 8 := by decide
  by_cases hp : positionPat.isPrefixOf s
  · simp only [hp, if_true, hplen] at hm
    have hple : 8 ≤ s.length := by
      have := (List.isPrefixOf_iff_prefix.mp hp).length_le
      omega
    by_cases hw : ((s.drop 8).takeWhile rsIsWs).isEmpty
    · simp [hw] at hm
    · simp only [hw, if_false] at hm
      have hdw : ((s.drop 8).dropWhile rsIsWs).length ≤ (s.drop 8).length :=
        (List.dropWhile_sublist _).length_le
      rcases hc : (s.drop 8).dropWhile rsIsWs with _ | ⟨c, t⟩
      · simp [hc] at hm
      · rw [hc] at hm
        by_cases hbrace : c = Char.ofNat 123
        · simp only [hbrace, if_true] at hm
          have hdw2 : (t.dropWhile (fun d => !(d == Char.ofNat 125))).length ≤
              t.length := (List.dropWhile_sublist _).length_le
          rcases hd : t.dropWhile (fun d => !(d == Char.ofNat 125)) with _ | ⟨d, t3⟩
          · simp [hd] at hm
          · rw [hd] at hm
            by_cases hdq : d = Char.ofNat 125
            · simp only [hdq] at hm
              have hr : t3 = r := by simpa using hm
              rw [hc] at hdw
              rw [hd] at hdw2
              rw [← hr]
              simp only [List.length_cons, List.length_drop] at hdw hdw2 ⊢
              omega
            · simp [hdq] at hm
        · simp [hbrace] at hm
  · simp [hp] at hm

theorem matchPos_suffix (s r : List Char) (hm : matchPos s = some r) : r <:+ s := by
  unfold matchPos at hm
  by_cases hp : positionPat.isPrefixOf s
  · simp only [hp, if_true] at hm
    by_cases hw : ((s.drop positionPat.length).takeWhile rsIsWs).isEmpty
    · simp [hw] at hm
    · simp only [hw, if_false] at hm
      rcases hc : (s.drop positionPat.length).dropWhile rsIsWs with _ | ⟨c, t⟩
      · simp [hc] at hm
      · rw [hc] at hm
        by_cases hbrace : c = Char.ofNat 123
        · simp only [hbrace, if_true] at hm
          rcases hd : t.dropWhile (fun d => !(d == Char.ofNat 125)) with _ | ⟨d, t3⟩
          · simp [hd] at hm
          · rw [hd] at hm
            by_cases hdq : d = Char.ofNat 125
            · simp only [hdq] at hm
              have hr : t3 = r := by simpa using hm
              rw [← hr]
              have h1 : t3 <:+ t := by
                have hsuf : t.dropWhile (fun d => !(d == Char.ofNat 125)) <:+ t :=
                  List.dropWhile_suffix _
                rw [hd] at hsuf
                exact (List.suffix_cons d t3).trans hsuf
              have h2 : t <:+ s := by
                have hsuf2 : (s.drop positionPat.length).dropWhile rsIsWs <:+
                    s.drop positionPat.length := List.dropWhile_suffix _
                rw [hc] at hsuf2
                exact ((List.suffix_cons c t).trans hsuf2).trans
                  (List.drop_suffix _ _)
              exact h1.trans h2
            · simp [hdq] at hm
        · simp [hbrace] at hm
  · simp [hp] at hm

theorem stripAll_match (c : Char) (t rest : List Char)
    (h : matchPos (c :: t) = some rest) : stripAll (c :: t) = stripAll rest := by
  rw [stripAll]
  split
  · rename_i r2 heq
    rw [heq] at h
    rw [Option.some.inj h]
  · rename_i heq
    rw [heq] at h
    cases h

theorem stripAll_none_step (c : Char) (t : List Char)
    (h : matchPos (c :: t) = none) : stripAll (c :: t) = c :: stripAll t := by
  rw [stripAll]
  split
  · rename_i r2 heq
    rw [heq] at h
    cases h
  · rfl

theorem stripAll_nil : stripAll [] = [] := by
  rw [stripAll]

theorem stripAll_sublist (n : Nat) :
    ∀ s : List Char, s.length ≤ n → (stripAll s).Sublist s := by
  induction n with
  | zero =>
    intro s hlen
    have hnil : s = [] := List.length_eq_zero.mp (Nat.le_zero.mp hlen)
    rw [hnil, stripAll_nil]
  | succ n ih =>
    intro s hlen
    cases s with
    | nil => rw [stripAll_nil]
    | cons c t =>
      cases hm : matchPos (c :: t) with
      | some rest =>
        rw [stripAll_match c t rest hm]
        have hlt := matchPos_length_lt (c :: t) rest hm
        have hsub : (stripAll rest).Sublist rest := by
          apply ih
          simp only [List.length_cons] at hlt hlen
          omega
        exact hsub.trans (matchPos_suffix _ _ hm).sublist
      | none =>
        rw [stripAll_none_step c t hm]
        refine List.Sublist.cons₂ c (ih t ?_)
        simp only [List.length_cons] at hlen
        omega

theorem stripAll_no_match (s : List Char)
    (h : ∀ t, t <:+ s → matchPos t = none) : stripAll s = s := by
  induction s with
  | nil => exact stripAll_nil
  | cons c t ih =>
    rw [stripAll_none_step c t (h (c :: t) (List.suffix_refl _))]
    rw [ih (fun u hu => h u (hu.trans (List.suffix_cons c t)))]

/-- C5: when the text contains the substring `"position"`, `read_family`
strips every `position \x7b ... \x7d` block (each ending at the first
closing brace) before delegating to the external parser, and otherwise
passes the text through unchanged; the stripping only deletes matched
blocks (the result is a sublist, and a text with no matching block
anywhere is left intact), so a text that parses once its unrecognized
`position` block is removed makes `read_family` succeed. -/
theorem c5_read_family_position_stripping {E F : Type}
    (parse : List Char → Except E F) (s : List Char) :
    (hasSub positionPat s = true → read_family parse s = parse (stripAll s)) ∧
    (hasSub positionPat s = false → read_family parse s = parse s) ∧
    (stripAll s).Sublist s ∧
    ((∀ t, t <:+ s → matchPos t = none) → stripAll s = s) ∧
    (∀ fam, hasSub positionPat s = true → parse (stripAll s) = Except.ok fam →
      read_family parse s = Except.ok fam) := by
  refine ⟨?_, ?_, ?_, ?_, ?_⟩
  · intro h
    unfold read_family
    rw [if_pos h]
  · intro h
    unfold read_family
    rw [if_neg (by simp [h])]
  · exact stripAll_sublist s.length s le_rfl
  · exact stripAll_no_match s
  · intro fam h hp
    unfold read_family
    rw [if_pos h, hp]

/-- Witness for C5: a two-field text with an unrecognized `position`
block parses after stripping (the probe parser rejects any text still
containing `"position"`). -/
theorem c5_read_family_position_stripping_witness :
    read_family parseProbe "a: 1\nposition \x7b x: 2 \x7d\nb: 3".data =
      Except.ok () := by
  have hsub : hasSub positionPat "a: 1\nposition \x7b x: 2 \x7d\nb: 3".data = true := by
    decide
  have hstrip : stripAll "a: 1\nposition \x7b x: 2 \x7d\nb: 3".data =
      "a: 1\n\nb: 3".data := by
    rw [show ("a: 1\nposition \x7b x: 2 \x7d\nb: 3".data) =
      'a' :: ':' :: ' ' :: '1' :: '\n' :: ("position \x7b x: 2 \x7d\nb: 3".data)
      from rfl]
    rw [stripAll_none_step _ _ (by decide)]
    rw [stripAll_none_step _ _ (by decide)]
    rw [stripAll_none_step _ _ (by decide)]
    rw [stripAll_none_step _ _ (by decide)]
    rw [stripAll_none_step _ _ (by decide)]
    rw [show ("position \x7b x: 2 \x7d\nb: 3".data) =
      'p' :: ("osition \x7b x: 2 \x7d\nb: 3".data) from rfl]
    rw [stripAll_match _ _ ("\nb: 3".data) (by decide)]
    rw [show ("\nb: 3".data) = '\n' :: 'b' :: ':' :: ' ' :: '3' :: [] from rfl]
    rw [stripAll_none_step _ _ (by decide)]
    rw [stripAll_none_step _ _ (by decide)]
    rw [stripAll_none_step _ _ (by decide)]
    rw [stripAll_none_step _ _ (by decide)]
    rw [stripAll_none_step _ _ (by decide)]
    rw [stripAll_nil]
  apply (c5_read_family_position_stripping parseProbe _).2.2.2.2 () hsub
  rw [hstrip]
  rfl

theorem lastLookup_append (l₁ l₂ : List (String × Nat)) (k : String) :
    lastLookup (l₁ ++ l₂) k =
      match lastLookup l₂ k with
      | some v => some v
      | none => lastLookup l₁ k := by
  unfold lastLookup
  rw [List.reverse_append, List.find?_append]
  cases hf : l₂.reverse.find? (fun p => p.1 == k) <;> simp [hf, Option.or]

theorem lastLookup_map_same (fonts : List FontProto) (n : Nat) (k : String)
    (h : k ∈ fonts.map FontProto.filename) :
    lastLookup (fonts.map (fun ft => (ft.filename, n))) k = some n := by
  unfold lastLookup
  obtain ⟨ft, hft, hname⟩ := List.mem_map.mp h
  have hex : ∃ x, x ∈ (fonts.map (fun ft => (ft.filename, n))).reverse ∧
      (x.1 == k) = true := by
    refine ⟨(ft.filename, n), ?_, by simp [hname]⟩
    rw [List.mem_reverse]
    exact List.mem_map.mpr ⟨ft, hft, rfl⟩
  have hsome := List.find?_isSome.mpr hex
  obtain ⟨pr, hpr⟩ := Option.isSome_iff_exists.mp hsome
  have hmem := List.mem_of_find?_eq_some hpr
  rw [List.mem_reverse] at hmem
  obtain ⟨ft2, _, hpr2⟩ := List.mem_map.mp hmem
  rw [hpr, ← hpr2]
  rfl

theorem pairsAux_none {E : Type} (k : String) :
    ∀ (fams : List (String × Except E FamilyProto)) (n : Nat),
      (∀ i p f, fams.get? i = some (p, Except.ok f) →
        k ∉ f.fonts.map FontProto.filename) →
      lastLookup (pairsAux n fams) k = none := by
  intro fams
  induction fams with
  | nil => intro n _; rfl
  | cons hd rest ih =>
    intro n h
    obtain ⟨p₀, r₀⟩ := hd
    cases r₀ with
    | error e =>
      have hblock : pairsAux n ((p₀, Except.error e) :: rest) =
          pairsAux (n + 1) rest := by
        simp [pairsAux]
      rw [hblock]
      exact ih (n + 1) (fun i p f hget => h (i + 1) p f (by simpa using hget))
    | ok f =>
      have hblock : pairsAux n ((p₀, Except.ok f) :: rest) =
          f.fonts.map (fun ft => (ft.filename, n)) ++ pairsAux (n + 1) rest := by
        simp [pairsAux]
      rw [hblock, lastLookup_append,
        ih (n + 1) (fun i p f hget => h (i + 1) p f (by simpa using hget))]
      have hk := h 0 p₀ f rfl
      have hnone : ((f.fonts.map (fun ft => (ft.filename, n))).reverse.find?
          (fun pr => pr.1 == k)) = none := by
        rw [List.find?_eq_none]
        intro x hx
        rw [List.mem_reverse] at hx
        obtain ⟨ft, hft, hxe⟩ := List.mem_map.mp hx
        rw [← hxe]
        simp only [beq_iff_eq]
        intro he
        exact hk (List.mem_map.mpr ⟨ft, hft, he⟩)
      show lastLookup (f.fonts.map (fun ft => (ft.filename, n))) k = none
      unfold lastLookup
      rw [hnone]
      rfl

theorem pairsAux_some {E : Type} (k : String) :
    ∀ (fams : List (String × Except E FamilyProto)) (n i : Nat) (p : String)
      (f : FamilyProto),
      fams.get? i = some (p, Except.ok f) →
      k ∈ f.fonts.map FontProto.filename →
      (∀ j q g, i < j → fams.get? j = some (q, Except.ok g) →
        k ∉ g.fonts.map FontProto.filename) →
      lastLookup (pairsAux n fams) k = some (n + i) := by
  intro fams
  induction fams with
  | nil =>
    intro n i p f hget
    simp at hget
  | cons hd rest ih =>
    intro n i p f hget hk hlater
    obtain ⟨p₀, r₀⟩ := hd
    cases i with
    | zero =>
      have h0 : (p₀, r₀) = (p, Except.ok f) := by simpa using hget
      injection h0 with hp0 hr0
      have hblock : pairsAux n ((p₀, Except.ok f) :: rest) =
          f.fonts.map (fun ft => (ft.filename, n)) ++ pairsAux (n + 1) rest := by
        simp [pairsAux]
      rw [hr0, hblock, lastLookup_append]
      have hrest : lastLookup (pairsAux (n + 1) rest) k = none := by
        apply pairsAux_none
        intro i2 p2 f2 hget2
        exact hlater (i2 + 1) p2 f2 (Nat.succ_pos i2) (by simpa using hget2)
      rw [hrest]
      simpa using lastLookup_map_same f.fonts n k hk
    | succ i2 =>
      have hget2 : rest.get? i2 = some (p, Except.ok f) := by simpa using hget
      have hlater2 : ∀ j q g, i2 < j → rest.get? j = some (q, Except.ok g) →
          k ∉ g.fonts.map FontProto.filename := by
        intro j q g hj hg
        exact hlater (j + 1) q g (by omega) (by simpa using hg)
      have hr := ih (n + 1) i2 p f hget2 hk hlater2
      cases r₀ with
      | error e =>
        have hblock : pairsAux n ((p₀, Except.error e) :: rest) =
            pairsAux (n + 1) rest := by
          simp [pairsAux]
        rw [hblock, hr]
        exact congrArg some (by omega)
      | ok f0 =>
        have hblock : pairsAux n ((p₀, Except.ok f0) :: rest) =
            f0.fonts.map (fun ft => (ft.filename, n)) ++ pairsAux (n + 1) rest := by
          simp [pairsAux]
        rw [hblock, lastLookup_append, hr]
        exact congrArg some (by omega)

/-- C6: the reverse index behind `family` is built only from the `Ok`
parses of the families list — a font file name owned only by families
whose parse failed resolves to `none` — and when the same file name is
owned by several `Ok` families, `family` returns the one occurring latest
in discovery order (last write wins). -/
theorem c6_family_reverse_index {E : Type}
    (fams : List (String × Except E FamilyProto)) (font : FontProto) :
    ((∀ i p f, fams.get? i = some (p, Except.ok f) →
        font.filename ∉ f.fonts.map FontProto.filename) →
      familyOf fams font = none) ∧
    (∀ i p f, fams.get? i = some (p, Except.ok f) →
      font.filename ∈ f.fonts.map FontProto.filename →
      (∀ j q g, i < j → fams.get? j = some (q, Except.ok g) →
        font.filename ∉ g.fonts.map FontProto.filename) →
      familyOf fams font = some (p, f)) := by
  constructor
  · intro h
    unfold familyOf family_by_font_file
    rw [pairsAux_none font.filename fams 0 h]
  · intro i p f hget hk hlater
    unfold familyOf family_by_font_file
    rw [pairsAux_some font.filename fams 0 i p f hget hk hlater]
    simp only [Nat.zero_add]
    rw [hget]

/-- Witness for C6 at a concrete families list: `Dup.ttf` is owned by the
families at indices 0 and 2 (index 1 failed to parse); the index-2 family
wins. -/
theorem c6_family_reverse_index_witness :
    familyOf famsC6 fontDup = some ("pb", famDupB) := by
  apply (c6_family_reverse_index famsC6 fontDup).2 2 "pb" famDupB rfl (by decide)
  intro j q g hj hget
  exfalso
  have hlt : j < 3 := by
    by_contra hge
    rw [List.get?_eq_none.mpr (by simp [famsC6]; omega)] at hget
    cases hget
  omega
